import Mathlib

/-!
Verification of the vrypt-server reactor core.

Shallow embedding of the Rust sources:
  src/config.rs  -- constants
  src/conn.rs    -- connection record and incremental request-terminator scan
  src/slab.rs    -- token-indexed slab of optional connections
  src/pool.rs    -- buffer pool and token pool
  src/timer.rs   -- 64-slot timer wheel
  src/worker.rs  -- reactor: timeout heap, accept, handle_connection, drain
  src/counter.rs -- per-worker RPS counter and stats pusher
  src/main.rs    -- older monolithic variant (full-buffer rescan request_complete)

Machine integers are modelled as Nat, with an explicit mod 2 ^ 64 where u64
wrap-around matters (the RPS counter and the wrapping subtraction of the
stats pusher).  Instants are Nat milliseconds.  Rust Vec push/pop stacks are
modelled as Lean lists with the head as the stack top.
-/

/-! ## Constants (src/config.rs) -/

def BUF_SIZE : Nat := 64 * 1024

def MAX_CONNS : Nat := 65536

def MAX_RECYCLED_BUFS : Nat := 256

/-- CONN_TIMEOUT = Duration::from_secs(30), in milliseconds. -/
def CONN_TIMEOUT : Nat := 30000

def UMAX : Nat := 2 ^ 64

/-! ## Generic list-indexing helpers (Vec indexing in the source) -/

theorem getD_set_self {α : Type} (l : List α) (i : Nat) (x d : α)
    (h : i < l.length) : (l.set i x).getD i d = x := by
  induction l generalizing i with
  | nil => simp at h
  | cons a as ih =>
    cases i with
    | zero => rfl
    | succ n => simpa using ih n (by simpa using h)

theorem getD_set_ne {α : Type} (l : List α) (i j : Nat) (x d : α)
    (hij : i ≠ j) : (l.set i x).getD j d = l.getD j d := by
  induction l generalizing i j with
  | nil => rfl
  | cons a as ih =>
    cases i with
    | zero => cases j with
      | zero => exact absurd rfl hij
      | succ m => rfl
    | succ n => cases j with
      | zero => rfl
      | succ m => simpa using ih n m (by omega)

theorem getD_replicate {α : Type} (n i : Nat) (a d : α) :
    (List.replicate n a).getD i d = if i < n then a else d := by
  induction n generalizing i with
  | zero => simp [List.replicate]
  | succ m ih =>
    cases i with
    | zero => simp [List.replicate]
    | succ k => simpa [List.replicate] using ih k

/-! ## Connection record (src/conn.rs)

The Rust struct holds a TcpStream, which is I/O and is not modelled; the
response is an immutable byte slice (write_buf).

worker.rs reads a field `conn.generation` (worker.rs:76,147,178), but the
`Conn` struct in conn.rs declares no such field, and no statement anywhere
in the repository writes a generation.  We model the field as set once at
construction and never modified, which is exactly how every reachable
execution of worker.rs treats it. -/

structure Conn where
  read_buf : List Nat
  read_len : Nat
  scan_offset : Nat
  write_buf : List Nat
  write_pos : Option Nat
  last_active : Nat
  generation : Nat
deriving DecidableEq, Repr

/-- Conn::new (conn.rs): fresh connection at time `now`. -/
def Conn.new (response buf : List Nat) (now : Nat) : Conn :=
  { read_buf := buf
    read_len := 0
    scan_offset := 0
    write_buf := response
    write_pos := none
    last_active := now
    generation := 0 }

/-- Conn::touch (conn.rs): sets last_active to now.  It does not modify
any other field (in particular, no generation is bumped). -/
def Conn.touch (c : Conn) (now : Nat) : Conn :=
  { c with last_active := now }

/-- Conn::arm_write (conn.rs). -/
def Conn.arm_write (c : Conn) : Conn :=
  { c with read_len := 0, scan_offset := 0, write_pos := some 0 }

/-- Conn::reset_for_read (conn.rs). -/
def Conn.reset_for_read (c : Conn) : Conn :=
  { c with write_pos := none }

/-- Conn::has_pending_write (conn.rs). -/
def Conn.has_pending_write (c : Conn) : Bool :=
  match c.write_pos with
  | some pos => pos < c.write_buf.length
  | none => false

/-- The byte sequence b"\r\n\r\n". -/
def crlfcrlf : List Nat := [13, 10, 13, 10]

/-- slice.windows(4).any(|w| w == b"\r\n\r\n"): some 4-byte window of `l`
equals the terminator.  Windows are matched by testing the 4-byte prefix at
each start position; a suffix shorter than four bytes never matches. -/
def hasCRLFCRLF : List Nat → Bool
  | [] => false
  | a :: rest => decide ((a :: rest).take 4 = crlfcrlf) || hasCRLFCRLF rest

/-- Conn::request_complete (conn.rs): scan read_buf[start..read_len] for
the terminator, where start = scan_offset.saturating_sub(3); then, when
read_len ≥ 3, advance scan_offset to read_len - 3.  Returns the found flag
together with the updated connection. -/
def Conn.request_complete (c : Conn) : Bool × Conn :=
  let start := c.scan_offset - 3
  let found := hasCRLFCRLF ((c.read_buf.take c.read_len).drop start)
  let c2 := if 3 ≤ c.read_len then { c with scan_offset := c.read_len - 3 } else c
  (found, c2)

/-- Conn::request_complete of the monolithic variant (main.rs:112-115):
full scan of filled() = read_buf[..read_len]. -/
def Conn.request_complete_full (c : Conn) : Bool :=
  hasCRLFCRLF (c.read_buf.take c.read_len)

/-- Scan invariant maintained by the event loop for every live connection:
the scan offset stays within the filled region, the filled region stays
within the buffer, and no terminator window starts strictly below
scan_offset - 3 (those positions were scanned by an earlier call that
returned false, or scan_offset is still 0). -/
def scanInvB (c : Conn) : Bool :=
  decide (c.scan_offset ≤ c.read_len) &&
  decide (c.read_len ≤ c.read_buf.length) &&
  (List.range (c.scan_offset - 3)).all
    (fun p => decide (((c.read_buf.take c.read_len).drop p).take 4 ≠ crlfcrlf))

/-! ## The incremental terminator scan agrees with the full scan -/

theorem hasCRLFCRLF_iff (l : List Nat) :
    hasCRLFCRLF l = true ↔ ∃ p, (l.drop p).take 4 = crlfcrlf := by
  induction l with
  | nil =>
    simp only [hasCRLFCRLF]
    constructor
    · intro h; cases h
    · rintro ⟨p, hp⟩
      simp [List.drop_nil] at hp
      exact absurd hp (by decide)
  | cons a rest ih =>
    simp only [hasCRLFCRLF, Bool.or_eq_true, decide_eq_true_eq]
    constructor
    · rintro (h | h)
      · exact ⟨0, by simpa using h⟩
      · obtain ⟨p, hp⟩ := ih.mp h
        exact ⟨p + 1, by simpa using hp⟩
    · rintro ⟨p, hp⟩
      cases p with
      | zero => exact Or.inl (by simpa using hp)
      | succ q => exact Or.inr (ih.mpr ⟨q, by simpa using hp⟩)

theorem hasCRLFCRLF_drop (l : List Nat) (s : Nat)
    (h : ∀ p, p < s → (l.drop p).take 4 ≠ crlfcrlf) :
    hasCRLFCRLF (l.drop s) = hasCRLFCRLF l := by
  have hiff : (hasCRLFCRLF (l.drop s) = true) ↔ (hasCRLFCRLF l = true) := by
    rw [hasCRLFCRLF_iff, hasCRLFCRLF_iff]
    constructor
    · rintro ⟨p, hp⟩
      refine ⟨s + p, ?_⟩
      rw [← List.drop_drop]
      exact hp
    · rintro ⟨p, hp⟩
      rcases Nat.lt_or_ge p s with hps | hps
      · exact absurd hp (h p hps)
      · refine ⟨p - s, ?_⟩
        rw [List.drop_drop, Nat.add_sub_cancel' hps]
        exact hp
  cases h1 : hasCRLFCRLF (l.drop s) with
  | true => exact (hiff.mp h1).symm
  | false =>
    cases h2 : hasCRLFCRLF l with
    | true => exact absurd (hiff.mpr h2) (by simp [h1])
    | false => rfl

theorem scanInvB_iff (c : Conn) :
    scanInvB c = true ↔
      (c.scan_offset ≤ c.read_len ∧ c.read_len ≤ c.read_buf.length ∧
        ∀ p, p < c.scan_offset - 3 →
          ((c.read_buf.take c.read_len).drop p).take 4 ≠ crlfcrlf) := by
  simp [scanInvB, List.all_eq_true, List.mem_range, and_assoc]

theorem request_complete_fst (c : Conn) :
    (c.request_complete).1 =
      hasCRLFCRLF ((c.read_buf.take c.read_len).drop (c.scan_offset - 3)) := rfl

theorem request_complete_snd (c : Conn) :
    (c.request_complete).2 =
      if 3 ≤ c.read_len then { c with scan_offset := c.read_len - 3 } else c := rfl

/-- Claim C3: for every connection state reachable by the event loop
(characterised by the scan invariant), the incremental request_complete of
conn.rs returns true iff the byte sequence CR LF CR LF occurs anywhere in
read_buf[..read_len] -- that is, it agrees with the full scan of the
monolithic variant (main.rs) -- and the call preserves the scan invariant:
directly when it returns false, and after the arm_write that the reactor
performs when it returns true. -/
theorem C3_request_complete_incremental_matches_full (c : Conn)
    (h : scanInvB c = true) :
    (c.request_complete).1 = c.request_complete_full
  ∧ ((c.request_complete).1 = false → scanInvB (c.request_complete).2 = true)
  ∧ ((c.request_complete).1 = true →
      scanInvB ((c.request_complete).2.arm_write) = true) := by
  obtain ⟨h1, h2, h3⟩ := (scanInvB_iff c).mp h
  have heq : (c.request_complete).1 = c.request_complete_full := by
    rw [request_complete_fst, Conn.request_complete_full]
    exact hasCRLFCRLF_drop _ _ h3
  refine ⟨heq, ?_, ?_⟩
  · intro hfalse
    have hfull : hasCRLFCRLF (c.read_buf.take c.read_len) = false := by
      rw [← Conn.request_complete_full, ← heq]
      exact hfalse
    have hnone : ∀ p, ((c.read_buf.take c.read_len).drop p).take 4 ≠ crlfcrlf := by
      intro p hp
      have : hasCRLFCRLF (c.read_buf.take c.read_len) = true :=
        (hasCRLFCRLF_iff _).mpr ⟨p, hp⟩
      rw [hfull] at this
      cases this
    rw [request_complete_snd]
    by_cases hrl : 3 ≤ c.read_len
    · rw [if_pos hrl, scanInvB_iff]
      refine ⟨by simp, by simpa using h2, ?_⟩
      intro p _
      simpa using hnone p
    · rw [if_neg hrl]
      exact h
  · intro _
    rw [scanInvB_iff]
    refine ⟨?_, ?_, ?_⟩
    · simp [Conn.arm_write, request_complete_snd]
    · simp only [Conn.arm_write, request_complete_snd]
      by_cases hrl : 3 ≤ c.read_len <;> simp [hrl]
    · intro p hp
      simp only [Conn.arm_write] at hp
      omega

def cScanW : Conn :=
  { read_buf := [72, 13, 10, 13, 10], read_len := 5, scan_offset := 0
    write_buf := [], write_pos := none, last_active := 0, generation := 0 }

theorem C3_request_complete_witness :
    scanInvB cScanW = true
  ∧ ((cScanW.request_complete).1 = cScanW.request_complete_full
  ∧ ((cScanW.request_complete).1 = false → scanInvB (cScanW.request_complete).2 = true)
  ∧ ((cScanW.request_complete).1 = true →
      scanInvB ((cScanW.request_complete).2.arm_write) = true)) :=
  ⟨by decide, C3_request_complete_incremental_matches_full cScanW (by decide)⟩

/-- Claim C10: the result of request_complete and the updated scan_offset
depend only on read_buf[..read_len] and scan_offset.  Two states with equal
read_len, equal scan_offset and equal filled prefixes produce the same
answer and the same updated scan_offset; bytes at indices at or above
read_len (for example stale contents of a recycled, non-zeroed buffer from
BufPool::release in pool.rs) never influence request detection. -/
theorem C10_scan_reads_only_filled_bytes (c1 c2 : Conn)
    (hrl : c1.read_len = c2.read_len) (hso : c1.scan_offset = c2.scan_offset)
    (hbuf : c1.read_buf.take c1.read_len = c2.read_buf.take c2.read_len) :
    (c1.request_complete).1 = (c2.request_complete).1
  ∧ (c1.request_complete).2.scan_offset = (c2.request_complete).2.scan_offset := by
  constructor
  · rw [request_complete_fst, request_complete_fst, hbuf, hso]
  · rw [request_complete_snd, request_complete_snd, hrl]
    by_cases h3 : 3 ≤ c2.read_len
    · simp [h3]
    · simp [h3, hso]

def cStaleW1 : Conn :=
  { read_buf := [13, 10, 13, 10, 99, 99], read_len := 4, scan_offset := 0
    write_buf := [], write_pos := none, last_active := 0, generation := 0 }

def cStaleW2 : Conn :=
  { read_buf := [13, 10, 13, 10, 55], read_len := 4, scan_offset := 0
    write_buf := [], write_pos := none, last_active := 0, generation := 0 }

theorem C10_scan_reads_only_filled_bytes_witness :
    (cStaleW1.request_complete).1 = (cStaleW2.request_complete).1
  ∧ (cStaleW1.request_complete).2.scan_offset
      = (cStaleW2.request_complete).2.scan_offset :=
  C10_scan_reads_only_filled_bytes cStaleW1 cStaleW2 (by decide) (by decide) (by decide)

/-! ## Slab (src/slab.rs): dense vector of optional connections -/

structure Slab where
  slots : List (Option Conn)
deriving DecidableEq, Repr

/-- Slab::new (slab.rs): cap empty slots. -/
def Slab.new (cap : Nat) : Slab :=
  { slots := List.replicate cap none }

/-- Slab::insert (slab.rs): slots[tok] = Some(conn). -/
def Slab.insert (s : Slab) (tok : Nat) (c : Conn) : Slab :=
  { slots := s.slots.set tok (some c) }

/-- Slab::get (slab.rs): slots[tok].as_ref(). -/
def Slab.get (s : Slab) (tok : Nat) : Option Conn :=
  s.slots.getD tok none

/-- Slab::get_mut (slab.rs): slots[tok].as_mut(); same lookup as get in a
functional model. -/
def Slab.get_mut (s : Slab) (tok : Nat) : Option Conn :=
  s.slots.getD tok none

/-- Slab::remove (slab.rs): slots[tok].take() -- returns the previous
occupant and leaves the slot empty. -/
def Slab.remove (s : Slab) (tok : Nat) : Option Conn × Slab :=
  (s.slots.getD tok none, { slots := s.slots.set tok none })

/-- Claim C8: slab index law.  For every token within capacity and every
connection record c: after insert(t, c), get(t) (and get_mut(t)) return c;
after remove(t), get(t) is empty; and remove returns the previous occupant
of slot t. -/
theorem C8_slab_index_law (s : Slab) (t : Nat) (c : Conn)
    (h : t < s.slots.length) :
    (s.insert t c).get t = some c
  ∧ (s.insert t c).get_mut t = some c
  ∧ ((s.remove t).2.get t = none)
  ∧ (s.remove t).1 = s.slots.getD t none := by
  refine ⟨?_, ?_, ?_, rfl⟩
  · exact getD_set_self s.slots t (some c) none h
  · exact getD_set_self s.slots t (some c) none h
  · exact getD_set_self s.slots t none none h

def cSlabW : Conn := Conn.new [] [] 7

theorem C8_slab_index_law_witness :
    ((Slab.new 2).insert 1 cSlabW).get 1 = some cSlabW
  ∧ ((Slab.new 2).insert 1 cSlabW).get_mut 1 = some cSlabW
  ∧ (((Slab.new 2).remove 1).2.get 1 = none)
  ∧ ((Slab.new 2).remove 1).1 = (Slab.new 2).slots.getD 1 none :=
  C8_slab_index_law (Slab.new 2) 1 cSlabW (by decide)

/-! ## Reactor timeout machinery (src/worker.rs)

The BinaryHeap<TimeoutEntry> is a min-heap on deadline (deadline is wrapped
in Reverse and Ord is derived from it); it is modelled as a list kept in
ascending deadline order, with push as ordered insertion and the
peek-and-pop drain loop walking the list front. -/

structure TimeoutEntry where
  deadline : Nat
  token : Nat
  generation : Nat
deriving DecidableEq, Repr

/-- timeout_heap.push (worker.rs): ordered insertion into the heap model. -/
def heapPush : List TimeoutEntry → TimeoutEntry → List TimeoutEntry
  | [], e => [e]
  | x :: xs, e => if e.deadline < x.deadline then e :: x :: xs else x :: heapPush xs e

/-- The timeout-drain loop at the top of the worker loop (worker.rs:70-85):
while the least-deadline entry is due (deadline ≤ now), pop it; if the slab
still holds the token and the entry generation equals the connection's
current generation, push the token onto to_close; otherwise discard the
stale entry.  Returns the accumulated to_close list and the remaining
heap. -/
def drainTimeouts : List TimeoutEntry → Slab → Nat → List Nat →
    List Nat × List TimeoutEntry
  | [], _, _, acc => (acc, [])
  | e :: rest, slab, now, acc =>
    if e.deadline ≤ now then
      match slab.get e.token with
      | some conn =>
        if conn.generation = e.generation then
          drainTimeouts rest slab now (acc ++ [e.token])
        else drainTimeouts rest slab now acc
      | none => drainTimeouts rest slab now acc
    else (acc, e :: rest)

/-- The per-connection tail of accept_connections (worker.rs:142-155):
build the record, read its deadline and generation, insert into the slab,
and push the initial timeout entry. -/
def acceptConn (tok : Nat) (slab : Slab) (heap : List TimeoutEntry)
    (response buf : List Nat) (now : Nat) : Slab × List TimeoutEntry :=
  let conn := Conn.new response buf now
  let deadline := conn.last_active + CONN_TIMEOUT
  let generation := conn.generation
  (slab.insert tok conn,
   heapPush heap { deadline := deadline, token := tok, generation := generation })

/-- The touch prefix of handle_connection (worker.rs:165-183): look up the
token (absent tokens are ignored), touch last_active, read the connection's
generation, and push a fresh timeout entry
(last_active + CONN_TIMEOUT, token, generation). -/
def handleConnectionTouch (token : Nat) (slab : Slab)
    (heap : List TimeoutEntry) (now : Nat) : Slab × List TimeoutEntry :=
  match slab.get token with
  | none => (slab, heap)
  | some conn =>
    let conn2 := conn.touch now
    let entry : TimeoutEntry :=
      { deadline := conn2.last_active + CONN_TIMEOUT
        token := token
        generation := conn2.generation }
    (slab.insert token conn2, heapPush heap entry)

/-- Claim C2 (refuted by the code): on an event for a token present in the
slab, handle_connection touches last_active and pushes a fresh entry
(last_active + CONN_TIMEOUT, token, generation), but it does NOT bump the
connection's generation counter: the generation after the call equals the
generation before it (nothing in the repository ever writes a generation;
conn.rs declares no such field and Conn::touch only sets last_active).
Concrete run: token 1 live in the slab, event dispatched at t = 5000 ms. -/
theorem C2_handle_connection_does_not_bump_generation :
    (((handleConnectionTouch 1 ((Slab.new 2).insert 1 (Conn.new [] [] 0)) [] 5000).1.get 1).map
        Conn.last_active = some 5000)
  ∧ ((handleConnectionTouch 1 ((Slab.new 2).insert 1 (Conn.new [] [] 0)) [] 5000).2
        = [{ deadline := 5000 + CONN_TIMEOUT, token := 1, generation := 0 }])
  ∧ (((handleConnectionTouch 1 ((Slab.new 2).insert 1 (Conn.new [] [] 0)) [] 5000).1.get 1).map
        Conn.generation
      = (((Slab.new 2).insert 1 (Conn.new [] [] 0)).get 1).map Conn.generation) := by
  decide

/-- Claim C1 (refuted by the code): a connection that was active less than
CONN_TIMEOUT ago is nevertheless enqueued for close by the timeout drain,
because the matching-generation check always matches (generations are never
bumped).  Concrete run: token 1 accepted at t = 0 (initial entry due at
t = 30000), touched by an event at t = 29000 (so last_active = 29000 ≥
now - CONN_TIMEOUT = 0), yet the drain at t = 30000 pops the stale initial
entry, finds its generation equal to the connection's current generation,
and enqueues token 1 for close after only 1000 ms of idleness. -/
theorem C1_timeout_close_despite_recent_activity :
    (((handleConnectionTouch 1 (acceptConn 1 (Slab.new 2) [] [] [] 0).1
          (acceptConn 1 (Slab.new 2) [] [] [] 0).2 29000).1.get 1).map
        Conn.last_active = some 29000)
  ∧ 30000 - CONN_TIMEOUT ≤ 29000
  ∧ (drainTimeouts
        (handleConnectionTouch 1 (acceptConn 1 (Slab.new 2) [] [] [] 0).1
          (acceptConn 1 (Slab.new 2) [] [] [] 0).2 29000).2
        (handleConnectionTouch 1 (acceptConn 1 (Slab.new 2) [] [] [] 0).1
          (acceptConn 1 (Slab.new 2) [] [] [] 0).2 29000).1
        30000 []).1 = [1] := by
  decide

/-! ## Timer wheel (src/timer.rs)

WHEEL_SIZE = 64, WHEEL_MASK = 63, SLOT_DURATION = 1 s.  `x & 63` on a
usize equals `x % 64`; Instants are Nat milliseconds, so elapsed seconds
are `(now - last_tick) / 1000`. -/

def WHEEL_SIZE : Nat := 64

structure TimerWheel where
  slots : List (List (Nat × Nat))
  cursor : Nat
  last_tick : Nat
  timeout_slots : Nat
deriving DecidableEq, Repr

/-- TimerWheel::new (timer.rs): timeout_slots = (secs + 1).min(WHEEL_MASK). -/
def TimerWheel.new (timeout_secs now : Nat) : TimerWheel :=
  { slots := List.replicate WHEEL_SIZE []
    cursor := 0
    last_tick := now
    timeout_slots := min (timeout_secs + 1) (WHEEL_SIZE - 1) }

/-- TimerWheel::add (timer.rs): push the entry onto slot
(cursor + timeout_slots) & WHEEL_MASK. -/
def TimerWheel.add (w : TimerWheel) (token generation : Nat) : TimerWheel :=
  let slot := (w.cursor + w.timeout_slots) % WHEEL_SIZE
  { w with slots := w.slots.set slot (w.slots.getD slot [] ++ [(token, generation)]) }

/-- The `for _ in 0..ticks` body of TimerWheel::advance (timer.rs): rotate
the cursor one slot and drain that slot into the output. -/
def advanceLoop : Nat → TimerWheel → List (Nat × Nat) → TimerWheel × List (Nat × Nat)
  | 0, w, out => (w, out)
  | t + 1, w, out =>
    let c := (w.cursor + 1) % WHEEL_SIZE
    let drained := w.slots.getD c []
    advanceLoop t { w with cursor := c, slots := w.slots.set c [] } (out ++ drained)

/-- TimerWheel::advance (timer.rs): ticks = (elapsed_ms / 1000).min(64);
return unchanged when ticks = 0, else run the loop and advance last_tick
by SLOT_DURATION * ticks. -/
def TimerWheel.advance (w : TimerWheel) (now : Nat) (out : List (Nat × Nat)) :
    TimerWheel × List (Nat × Nat) :=
  let elapsed_ms := now - w.last_tick
  let ticks := min (elapsed_ms / 1000) WHEEL_SIZE
  if ticks = 0 then (w, out)
  else
    let r := advanceLoop ticks w out
    ({ r.1 with last_tick := w.last_tick + 1000 * ticks }, r.2)

theorem advanceLoop_spec (t : Nat) :
    ∀ (w : TimerWheel) (out : List (Nat × Nat)),
      w.cursor < 64 → w.slots.length = 64 → t ≤ 64 →
      (advanceLoop t w out).1.cursor = (w.cursor + t) % 64
    ∧ (advanceLoop t w out).1.last_tick = w.last_tick
    ∧ (advanceLoop t w out).1.timeout_slots = w.timeout_slots
    ∧ (advanceLoop t w out).1.slots.length = 64
    ∧ (advanceLoop t w out).2
        = out ++ ((List.range t).map
            (fun i => w.slots.getD ((w.cursor + 1 + i) % 64) [])).flatten
    ∧ (∀ i, i < t → (advanceLoop t w out).1.slots.getD ((w.cursor + 1 + i) % 64) [] = [])
    ∧ (∀ j, (∀ i, i < t → j ≠ (w.cursor + 1 + i) % 64) →
        (advanceLoop t w out).1.slots.getD j [] = w.slots.getD j []) := by
  induction t with
  | zero =>
    intro w out hc _hl _ht
    refine ⟨?_, rfl, rfl, _hl, by simp [advanceLoop], ?_, ?_⟩
    · simp [advanceLoop, Nat.mod_eq_of_lt hc]
    · intro i hi; omega
    · intro j _; rfl
  | succ t ih =>
    intro w out hc hl ht
    simp only [advanceLoop, WHEEL_SIZE]
    have hc1 : (w.cursor + 1) % 64 < 64 := Nat.mod_lt _ (by omega)
    have hl1 : ((w.slots.set ((w.cursor + 1) % 64) []).length) = 64 := by
      simpa using hl
    obtain ⟨ihc, ihlt, ihts, ihlen, ihout, ihclear, ihframe⟩ :=
      ih { w with cursor := (w.cursor + 1) % 64,
                  slots := w.slots.set ((w.cursor + 1) % 64) [] }
        (out ++ w.slots.getD ((w.cursor + 1) % 64) [])
        hc1 hl1 (by omega)
    dsimp only at ihc ihlt ihts ihlen ihout ihclear ihframe
    refine ⟨?_, ihlt, ihts, ihlen, ?_, ?_, ?_⟩
    · rw [ihc]; omega
    · rw [ihout]
      have hmapeq :
          (List.range t).map
              (fun i => (w.slots.set ((w.cursor + 1) % 64) []).getD
                (((w.cursor + 1) % 64 + 1 + i) % 64) [])
            = (List.range t).map
              (fun i => w.slots.getD ((w.cursor + 1 + Nat.succ i) % 64) []) := by
        refine List.map_congr_left ?_
        intro i hi
        have hit : i < t := List.mem_range.mp hi
        have hix : ((w.cursor + 1) % 64 + 1 + i) % 64 = (w.cursor + 1 + Nat.succ i) % 64 := by
          omega
        have hne : (w.cursor + 1) % 64 ≠ (w.cursor + 1 + Nat.succ i) % 64 := by
          omega
        rw [hix, getD_set_ne _ _ _ _ _ hne]
      rw [hmapeq, List.range_succ_eq_map, List.map_cons, List.map_map]
      simp only [List.flatten_cons, Function.comp, Nat.add_zero, List.append_assoc]
      rfl
    · intro i hi
      cases i with
      | zero =>
        have hframe1 : ∀ i2, i2 < t →
            (w.cursor + 1 + 0) % 64 ≠ ((w.cursor + 1) % 64 + 1 + i2) % 64 := by
          intro i2 hi2; omega
        rw [ihframe ((w.cursor + 1 + 0) % 64) hframe1]
        have : (w.cursor + 1 + 0) % 64 = (w.cursor + 1) % 64 := by omega
        rw [this]
        exact getD_set_self _ _ _ _ (by omega)
      | succ i2 =>
        have hi2 : i2 < t := by omega
        have hix : (w.cursor + 1 + Nat.succ i2) % 64 = ((w.cursor + 1) % 64 + 1 + i2) % 64 := by
          omega
        rw [hix]
        exact ihclear i2 hi2
    · intro j hj
      have hj1 : ∀ i, i < t → j ≠ ((w.cursor + 1) % 64 + 1 + i) % 64 := by
        intro i hi
        have h0 := hj (i + 1) (by omega)
        omega
      rw [ihframe j hj1]
      have hjc : j ≠ (w.cursor + 1) % 64 := by
        have h0 := hj 0 (by omega)
        omega
      exact getD_set_ne _ _ _ _ _ (fun h => hjc h.symm)

/-- Claim C4 counterexample: `add` does NOT place the entry into slot
(cursor + timeout_seconds) & 63.  For a wheel built with a 30-second
timeout and cursor 0, slot (0 + 30) & 63 = 30 stays empty and the entry
lands in slot 31, because timer.rs computes
timeout_slots = (secs + 1).min(63) = 31. -/
theorem C4_add_slot_counterexample :
    (((TimerWheel.new 30 0).add 7 5).slots.getD ((0 + 30) % 64) [] = [])
  ∧ (((TimerWheel.new 30 0).add 7 5).slots.getD 31 [] = [(7, 5)]) := by
  decide

/-- Claim C4 as amended: `new` sets timeout_slots = min(timeout_seconds + 1, 63);
`add` appends the entry to slot (cursor + timeout_slots) & 63; `advance`
rotates the cursor by ticks = min(elapsed whole seconds, 64), advances
last_tick by 1000 ms per tick, and drains each passed slot
(cursor + 1) & 63, ..., (cursor + ticks) & 63, in order, into the output
vector, leaving those slots empty. -/
theorem C4_wheel_add_advance (w : TimerWheel) (token gen now : Nat)
    (hc : w.cursor < 64) (hl : w.slots.length = 64) :
    (∀ secs t0, (TimerWheel.new secs t0).timeout_slots = min (secs + 1) 63)
  ∧ ((w.add token gen).slots.getD ((w.cursor + w.timeout_slots) % 64) []
       = w.slots.getD ((w.cursor + w.timeout_slots) % 64) [] ++ [(token, gen)])
  ∧ ((w.advance now []).1.cursor
       = (w.cursor + min ((now - w.last_tick) / 1000) 64) % 64)
  ∧ ((w.advance now []).1.last_tick
       = w.last_tick + 1000 * min ((now - w.last_tick) / 1000) 64)
  ∧ ((w.advance now []).2
       = ((List.range (min ((now - w.last_tick) / 1000) 64)).map
           (fun i => w.slots.getD ((w.cursor + 1 + i) % 64) [])).flatten)
  ∧ (∀ i, i < min ((now - w.last_tick) / 1000) 64 →
       (w.advance now []).1.slots.getD ((w.cursor + 1 + i) % 64) [] = []) := by
  refine ⟨?_, ?_, ?_⟩
  · intro secs t0
    simp [TimerWheel.new, WHEEL_SIZE]
  · simp only [TimerWheel.add, WHEEL_SIZE]
    exact getD_set_self _ _ _ _ (by rw [hl]; exact Nat.mod_lt _ (by omega))
  · simp only [TimerWheel.advance, WHEEL_SIZE]
    by_cases hticks : min ((now - w.last_tick) / 1000) 64 = 0
    · rw [hticks]
      refine ⟨by simp [Nat.mod_eq_of_lt hc], by simp, by simp, ?_⟩
      intro i hi
      omega
    · rw [if_neg hticks]
      have hle : min ((now - w.last_tick) / 1000) 64 ≤ 64 := Nat.min_le_right _ _
      obtain ⟨ihc, ihlt, _ihts, _ihlen, ihout, ihclear, _ihframe⟩ :=
        advanceLoop_spec (min ((now - w.last_tick) / 1000) 64) w [] hc hl hle
      refine ⟨by simpa using ihc, by rfl, by simpa using ihout, ?_⟩
      intro i hi
      simpa using ihclear i hi

theorem C4_wheel_add_advance_witness :
    ((((TimerWheel.new 0 0).add 7 5).advance 1000 []).2 = [(7, 5)])
  ∧ ((((TimerWheel.new 0 0).add 7 5).advance 1000 []).1.cursor = 1) := by
  have h := C4_wheel_add_advance ((TimerWheel.new 0 0).add 7 5) 9 9 1000
    (by decide) (by decide)
  refine ⟨?_, ?_⟩
  · rw [h.2.2.2.2.1]
    decide
  · rw [h.2.2.1]
    decide

/-! ## Buffer pool (src/pool.rs)

Buffers are byte lists; BufPool::acquire allocates Box::new([0u8; BUF_SIZE])
when the free list is empty.  The worker constructs the pool as
BufPool::new(MAX_CONNS, MAX_RECYCLED_BUFS) (worker.rs:49). -/

structure BufPool where
  free : List (List Nat)
  active : Nat
  max_active : Nat
  max_recycled : Nat
deriving DecidableEq, Repr

/-- BufPool::new (pool.rs). -/
def BufPool.new (max_active max_recycled : Nat) : BufPool :=
  { free := [], active := 0, max_active := max_active, max_recycled := max_recycled }

/-- BufPool::acquire (pool.rs): none when active ≥ max_active; otherwise
increment active and pop a recycled buffer or allocate a zeroed one. -/
def BufPool.acquire (p : BufPool) : Option (List Nat) × BufPool :=
  if p.max_active ≤ p.active then (none, p)
  else
    match p.free with
    | b :: rest => (some b, { p with active := p.active + 1, free := rest })
    | [] => (some (List.replicate BUF_SIZE 0), { p with active := p.active + 1 })

/-- BufPool::release (pool.rs): on active = 0 log a double-release
diagnostic and return unchanged; otherwise decrement active and retain the
buffer only while the free list has room.  (This modular variant does not
zero the recycled buffer; the monolithic main.rs variant does.) -/
def BufPool.release (p : BufPool) (buf : List Nat) : BufPool :=
  if p.active = 0 then p
  else
    let q : BufPool := { p with active := p.active - 1 }
    if q.free.length < q.max_recycled then { q with free := buf :: q.free } else q

/-- A client-side step for the buffer pool: acquire (keeping any returned
buffer on loan), or release the i-th buffer currently on loan.  A rel
index with no matching loaned buffer is skipped, which is what "calls in
valid order" means: only loaned buffers are ever handed back. -/
inductive BOp where
  | acq : BOp
  | rel : Nat → BOp

def stepB : BufPool × List (List Nat) → BOp → BufPool × List (List Nat)
  | (p, loaned), BOp.acq =>
    match p.acquire with
    | (some b, p2) => (p2, b :: loaned)
    | (none, p2) => (p2, loaned)
  | (p, loaned), BOp.rel i =>
    if i < loaned.length then (p.release (loaned.getD i []), loaned.eraseIdx i)
    else (p, loaned)

def runB (ops : List BOp) : BufPool × List (List Nat) :=
  ops.foldl stepB (BufPool.new MAX_CONNS MAX_RECYCLED_BUFS, [])

def BInv (s : BufPool × List (List Nat)) : Prop :=
  s.1.active = s.2.length
  ∧ s.1.free.length ≤ s.1.max_recycled
  ∧ (∀ b ∈ s.1.free, b.length = BUF_SIZE)
  ∧ (∀ b ∈ s.2, b.length = BUF_SIZE)
  ∧ s.1.max_active = MAX_CONNS
  ∧ s.1.max_recycled = MAX_RECYCLED_BUFS

theorem stepB_inv (p : BufPool) (loaned : List (List Nat)) (op : BOp)
    (h : BInv (p, loaned)) : BInv (stepB (p, loaned) op) := by
  obtain ⟨h1, h2, h3, h4, h5, h6⟩ := h
  dsimp only at h1 h2 h3 h4 h5 h6
  cases op with
  | acq =>
    by_cases hfull : p.max_active ≤ p.active
    · simp only [stepB, BufPool.acquire, if_pos hfull]
      exact ⟨h1, h2, h3, h4, h5, h6⟩
    · cases hfree : p.free with
      | nil =>
        simp only [stepB, BufPool.acquire, if_neg hfull, hfree]
        refine ⟨by dsimp only; (try simp only [List.length_cons, List.length_nil]); omega, by dsimp only; (try simp only [List.length_cons, List.length_nil]); omega, ?_, ?_, h5, h6⟩
        · intro b hb
          simp at hb
        · intro b hb
          rcases List.mem_cons.mp hb with hb | hb
          · rw [hb]; simp
          · exact h4 b hb
      | cons b0 rest =>
        have hfl : p.free.length = rest.length + 1 := by rw [hfree]; rfl
        simp only [stepB, BufPool.acquire, if_neg hfull, hfree]
        refine ⟨by dsimp only; (try simp only [List.length_cons, List.length_nil]); omega, by dsimp only; omega, ?_, ?_, h5, h6⟩
        · intro b hb
          dsimp only at hb
          exact h3 b (by rw [hfree]; exact List.mem_cons_of_mem _ hb)
        · intro b hb
          dsimp only at hb
          rcases List.mem_cons.mp hb with hb | hb
          · exact hb ▸ h3 b0 (by rw [hfree]; exact List.mem_cons_self _ _)
          · exact h4 b hb
  | rel i =>
    by_cases hi : i < loaned.length
    · simp only [stepB, if_pos hi]
      have hact : p.active ≠ 0 := by omega
      have hmem : loaned.getD i [] ∈ loaned := by
        have hg := List.getD_eq_getElem loaned [] hi
        rw [hg]
        exact List.getElem_mem hi
      have hlen : (loaned.eraseIdx i).length = loaned.length - 1 :=
        List.length_eraseIdx_of_lt hi
      simp only [BufPool.release, if_neg hact]
      by_cases hroom : p.free.length < p.max_recycled
      · simp only [if_pos hroom]
        refine ⟨by dsimp only; omega, by dsimp only; (try simp only [List.length_cons]); omega,
          ?_, ?_, h5, h6⟩
        · intro b hb
          dsimp only at hb
          rcases List.mem_cons.mp hb with hb | hb
          · exact hb ▸ h4 _ hmem
          · exact h3 b hb
        · intro b hb
          dsimp only at hb
          exact h4 b (List.eraseIdx_subset loaned i hb)
      · simp only [if_neg hroom]
        exact ⟨by dsimp only; omega, h2, h3,
          fun b hb => h4 b (List.eraseIdx_subset loaned i hb), h5, h6⟩
    · simp only [stepB, if_neg hi]
      exact ⟨h1, h2, h3, h4, h5, h6⟩

theorem foldlB_inv (ops : List BOp) :
    ∀ s, BInv s → BInv (List.foldl stepB s ops) := by
  induction ops with
  | nil => intro s h; exact h
  | cons op rest ih =>
    intro s h
    exact ih _ (stepB_inv s.1 s.2 op h)

theorem runB_inv (ops : List BOp) : BInv (runB ops) := by
  refine foldlB_inv ops _ ?_
  refine ⟨rfl, ?_, ?_, ?_, rfl, rfl⟩
  · simp [BufPool.new]
  · intro b hb; cases hb
  · intro b hb; cases hb

/-- Claim C5: buffer-pool conservation.  After any valid-order sequence of
acquire/release operations from the worker's initial pool: active equals
the number of buffers out on loan; the free list never exceeds
MAX_RECYCLED_BUFS entries; acquire returns none exactly when
active ≥ max_active (= MAX_CONNS); a successful acquire increments active
and returns a buffer of exactly BUF_SIZE bytes; and release decrements
active with Nat truncation, so a double release at active = 0 clamps at
zero instead of underflowing. -/
theorem C5_buf_pool_conservation (ops : List BOp) :
    ((runB ops).1.active = (runB ops).2.length)
  ∧ ((runB ops).1.free.length ≤ MAX_RECYCLED_BUFS)
  ∧ (((runB ops).1.acquire).1 = none ↔ MAX_CONNS ≤ (runB ops).1.active)
  ∧ (∀ b p2, (runB ops).1.acquire = (some b, p2) →
        b.length = BUF_SIZE ∧ p2.active = (runB ops).1.active + 1)
  ∧ (∀ q : BufPool, ∀ b, (q.release b).active = q.active - 1) := by
  obtain ⟨h1, h2, h3, h4, h5, h6⟩ := runB_inv ops
  refine ⟨h1, h6 ▸ h2, ?_, ?_, ?_⟩
  · by_cases hfull : (runB ops).1.max_active ≤ (runB ops).1.active
    · simp only [BufPool.acquire, if_pos hfull]
      simpa using h5 ▸ hfull
    · cases hfree : (runB ops).1.free with
      | nil =>
        simp only [BufPool.acquire, if_neg hfull, hfree]
        simp only [h5] at hfull
        simp [hfull]
      | cons b0 rest =>
        simp only [BufPool.acquire, if_neg hfull, hfree]
        simp only [h5] at hfull
        simp [hfull]
  · intro b p2 hacq
    by_cases hfull : (runB ops).1.max_active ≤ (runB ops).1.active
    · simp only [BufPool.acquire, if_pos hfull] at hacq
      cases hacq
    · cases hfree : (runB ops).1.free with
      | nil =>
        simp only [BufPool.acquire, if_neg hfull, hfree] at hacq
        obtain ⟨hb, hp2⟩ := Prod.mk.injEq .. ▸ hacq
        refine ⟨?_, ?_⟩
        · rw [← Option.some_inj.mp hb]
          simp
        · rw [← hp2]
      | cons b0 rest =>
        simp only [BufPool.acquire, if_neg hfull, hfree] at hacq
        obtain ⟨hb, hp2⟩ := Prod.mk.injEq .. ▸ hacq
        refine ⟨?_, ?_⟩
        · rw [← Option.some_inj.mp hb]
          exact h3 b0 (by rw [hfree]; exact List.mem_cons_self _ _)
        · rw [← hp2]
  · intro q b
    by_cases h0 : q.active = 0
    · simp [BufPool.release, h0]
    · simp only [BufPool.release, if_neg h0]
      by_cases hroom : q.free.length < q.max_recycled
      · simp [if_pos hroom]
      · simp [if_neg hroom]

theorem C5_buf_pool_conservation_witness :
    ((runB [BOp.acq]).1.active = (runB [BOp.acq]).2.length)
  ∧ (List.replicate BUF_SIZE (0 : Nat)).length = BUF_SIZE :=
  ⟨(C5_buf_pool_conservation [BOp.acq]).1,
   ((C5_buf_pool_conservation []).2.2.2.1 _ _ rfl).1⟩

/-! ## Token pool (src/pool.rs)

next starts at 1 (token 0 is the listener); in_use is a Vec<bool> of
MAX_CONNS entries.  The debug_assert in acquire is a diagnostic only and
has no state effect.  The worker constructs the pool as TokenPool::new()
(worker.rs:50). -/

structure TokenPool where
  next : Nat
  free : List Nat
  in_use : List Bool
deriving DecidableEq, Repr

/-- TokenPool::new (pool.rs). -/
def TokenPool.new : TokenPool :=
  { next := 1, free := [], in_use := List.replicate MAX_CONNS false }

/-- TokenPool::acquire (pool.rs): pop the free stack, or mint `next` while
next < MAX_CONNS, else none. -/
def TokenPool.acquire (p : TokenPool) : Option Nat × TokenPool :=
  match p.free with
  | t :: rest => (some t, { p with free := rest, in_use := p.in_use.set t true })
  | [] =>
    if p.next < MAX_CONNS then
      (some p.next, { p with next := p.next + 1, in_use := p.in_use.set p.next true })
    else (none, p)

/-- TokenPool::release (pool.rs): reject (log and return unchanged) a token
that is 0, out of range, or not marked in use; otherwise clear the mark and
push onto the free stack. -/
def TokenPool.release (p : TokenPool) (t : Nat) : TokenPool :=
  if t = 0 ∨ MAX_CONNS ≤ t then p
  else if p.in_use.getD t false then
    { p with in_use := p.in_use.set t false, free := t :: p.free }
  else p

/-- A client-side step for the token pool: acquire (the client keeps the
returned token), or hand a token value back to release.  Valid order is
not needed as a side condition here: the in_use bookkeeping makes release
ignore any token that is not currently held. -/
inductive TOp where
  | acq : TOp
  | rel : Nat → TOp

def stepT : TokenPool × List Nat → TOp → TokenPool × List Nat
  | (p, held), TOp.acq =>
    match p.acquire with
    | (some t, p2) => (p2, t :: held)
    | (none, p2) => (p2, held)
  | (p, held), TOp.rel t => (p.release t, held.erase t)

def runT (ops : List TOp) : TokenPool × List Nat :=
  ops.foldl stepT (TokenPool.new, [])

def TInv (s : TokenPool × List Nat) : Prop :=
  s.1.in_use.length = MAX_CONNS
  ∧ 1 ≤ s.1.next
  ∧ s.1.next ≤ MAX_CONNS
  ∧ (∀ t ∈ s.1.free, 0 < t ∧ t < s.1.next)
  ∧ (∀ t ∈ s.2, 0 < t ∧ t < s.1.next)
  ∧ s.1.free.Nodup
  ∧ s.2.Nodup
  ∧ (∀ t ∈ s.2, t ∉ s.1.free)
  ∧ (∀ t, s.1.in_use.getD t false = true ↔ t ∈ s.2)

theorem stepT_inv (p : TokenPool) (held : List Nat) (op : TOp)
    (h : TInv (p, held)) : TInv (stepT (p, held) op) := by
  obtain ⟨hlen, hn1, hn2, hfb, hhb, hfnd, hhnd, hdisj, hiu⟩ := h
  dsimp only at hlen hn1 hn2 hfb hhb hfnd hhnd hdisj hiu
  cases op with
  | acq =>
    cases hfree : p.free with
    | cons t rest =>
      have htb : 0 < t ∧ t < p.next := hfb t (by rw [hfree]; exact List.mem_cons_self _ _)
      have htheld : t ∉ held := fun hth => hdisj t hth (by rw [hfree]; exact List.mem_cons_self _ _)
      have htrest : t ∉ rest ∧ rest.Nodup := by
        rw [hfree] at hfnd
        exact ⟨(List.nodup_cons.mp hfnd).1, (List.nodup_cons.mp hfnd).2⟩
      simp only [stepT, TokenPool.acquire, hfree]
      refine ⟨by simpa using hlen, hn1, hn2, ?_, ?_, htrest.2, ?_, ?_, ?_⟩
      · intro u hu
        exact hfb u (by rw [hfree]; exact List.mem_cons_of_mem _ hu)
      · intro u hu
        rcases List.mem_cons.mp hu with hu | hu
        · exact hu ▸ htb
        · exact hhb u hu
      · exact List.nodup_cons.mpr ⟨htheld, hhnd⟩
      · intro u hu
        rcases List.mem_cons.mp hu with hu | hu
        · exact hu ▸ htrest.1
        · intro hur
          exact hdisj u hu (by rw [hfree]; exact List.mem_cons_of_mem _ hur)
      · intro u
        by_cases hut : u = t
        · subst hut
          rw [getD_set_self _ _ _ _ (by rw [hlen]; omega)]
          simp
        · rw [getD_set_ne _ _ _ _ _ (fun hh => hut hh.symm)]
          rw [hiu u]
          constructor
          · exact fun hu => List.mem_cons_of_mem _ hu
          · intro hu
            rcases List.mem_cons.mp hu with hu | hu
            · exact absurd hu hut
            · exact hu
    | nil =>
      by_cases hnext : p.next < MAX_CONNS
      · have htheld : p.next ∉ held := fun hth => by
          have := (hhb _ hth).2
          omega
        simp only [stepT, TokenPool.acquire, hfree, if_pos hnext, TInv]
        refine ⟨by simpa using hlen, by omega, by omega, ?_, ?_, by simp [hfree],
          List.nodup_cons.mpr ⟨htheld, hhnd⟩, ?_, ?_⟩
        · intro u hu
          simp [hfree] at hu
        · intro u hu
          rcases List.mem_cons.mp hu with hu | hu
          · subst hu
            constructor <;> omega
          · have := hhb u hu
            constructor <;> omega
        · intro u hu hur
          simp [hfree] at hur
        · intro u
          by_cases hut : u = p.next
          · subst hut
            rw [getD_set_self _ _ _ _ (by rw [hlen]; omega)]
            simp
          · rw [getD_set_ne _ _ _ _ _ (fun hh => hut hh.symm)]
            rw [hiu u]
            constructor
            · exact fun hu => List.mem_cons_of_mem _ hu
            · intro hu
              rcases List.mem_cons.mp hu with hu | hu
              · exact absurd hu hut
              · exact hu
      · simp only [stepT, TokenPool.acquire, hfree, if_neg hnext]
        exact ⟨hlen, hn1, hn2, hfb, hhb, hfnd, hhnd, hdisj, hiu⟩
  | rel t =>
    by_cases hrange : t = 0 ∨ MAX_CONNS ≤ t
    · have htheld : t ∉ held := fun hth => by
        have := hhb t hth
        omega
      have herase : held.erase t = held := List.erase_of_not_mem htheld
      simp only [stepT, TokenPool.release, if_pos hrange, herase]
      exact ⟨hlen, hn1, hn2, hfb, hhb, hfnd, hhnd, hdisj, hiu⟩
    · by_cases hmark : p.in_use.getD t false = true
      · have htheld : t ∈ held := (hiu t).mp hmark
        have htfree : t ∉ p.free := hdisj t htheld
        simp only [stepT, TokenPool.release, if_neg hrange, TInv]
        rw [if_pos hmark]
        refine ⟨by simpa using hlen, hn1, hn2, ?_, ?_, ?_, hhnd.erase t, ?_, ?_⟩
        · intro u hu
          rcases List.mem_cons.mp hu with hu | hu
          · exact hu ▸ hhb t htheld
          · exact hfb u hu
        · intro u hu
          exact hhb u (List.erase_subset t held hu)
        · exact List.nodup_cons.mpr ⟨htfree, hfnd⟩
        · intro u hu
          have hu2 := hhnd.mem_erase_iff.mp hu
          intro hur
          rcases List.mem_cons.mp hur with hur | hur
          · exact hu2.1 hur
          · exact hdisj u hu2.2 hur
        · intro u
          by_cases hut : u = t
          · subst hut
            rw [getD_set_self _ _ _ _ (by rw [hlen]; omega)]
            constructor
            · intro hfalse; cases hfalse
            · intro hu
              exact absurd ((hhnd.mem_erase_iff.mp hu).1 rfl) (fun q => q)
          · rw [getD_set_ne _ _ _ _ _ (fun hh => hut hh.symm)]
            rw [hiu u, hhnd.mem_erase_iff]
            constructor
            · exact fun hu => ⟨hut, hu⟩
            · exact fun hu => hu.2
      · have htheld : t ∉ held := fun hth => hmark ((hiu t).mpr hth)
        have herase : held.erase t = held := List.erase_of_not_mem htheld
        simp only [stepT, TokenPool.release, if_neg hrange, herase]
        rw [if_neg (by simpa using hmark)]
        exact ⟨hlen, hn1, hn2, hfb, hhb, hfnd, hhnd, hdisj, hiu⟩

theorem foldlT_inv (ops : List TOp) :
    ∀ s, TInv s → TInv (List.foldl stepT s ops) := by
  induction ops with
  | nil => intro s h; exact h
  | cons op rest ih =>
    intro s h
    exact ih _ (stepT_inv s.1 s.2 op h)

theorem runT_inv (ops : List TOp) : TInv (runT ops) := by
  refine foldlT_inv ops _ ⟨by simp [TokenPool.new], by simp [TokenPool.new],
    by decide, ?_, ?_, List.nodup_nil, List.nodup_nil, ?_, ?_⟩
  · intro t ht; cases ht
  · intro t ht; cases ht
  · intro t ht; cases ht
  · intro t
    constructor
    · intro hg
      rw [show (TokenPool.new, ([] : List Nat)).1.in_use = List.replicate MAX_CONNS false from rfl,
        getD_replicate] at hg
      by_cases hlt : t < MAX_CONNS
      · rw [if_pos hlt] at hg; cases hg
      · rw [if_neg hlt] at hg; cases hg
    · intro ht; cases ht

/-- Claim C6: token-pool invariants.  After any sequence of acquire/release
operations from the worker's initial pool: next never exceeds MAX_CONNS;
the set of tokens held by clients is disjoint from the free list; acquire
returns none exactly when the id space is exhausted (free list empty and
next = MAX_CONNS); a successful acquire never returns token 0; and acquire
pops the top of the free stack when one exists, otherwise mints `next`
while next < MAX_CONNS. -/
theorem C6_token_pool_invariants (ops : List TOp) :
    ((runT ops).1.next ≤ MAX_CONNS)
  ∧ (∀ t ∈ (runT ops).2, t ∉ (runT ops).1.free)
  ∧ (((runT ops).1.acquire).1 = none ↔
      ((runT ops).1.free = [] ∧ (runT ops).1.next = MAX_CONNS))
  ∧ (∀ t, ((runT ops).1.acquire).1 = some t → 0 < t)
  ∧ (∀ t rest, (runT ops).1.free = t :: rest → ((runT ops).1.acquire).1 = some t)
  ∧ ((runT ops).1.free = [] → (runT ops).1.next < MAX_CONNS →
      ((runT ops).1.acquire).1 = some (runT ops).1.next) := by
  obtain ⟨hlen, hn1, hn2, hfb, hhb, hfnd, hhnd, hdisj, hiu⟩ := runT_inv ops
  refine ⟨hn2, hdisj, ?_, ?_, ?_, ?_⟩
  · cases hfree : (runT ops).1.free with
    | cons t rest =>
      simp only [TokenPool.acquire, hfree]
      constructor
      · intro hc; simp at hc
      · rintro ⟨hc, -⟩; simp at hc
    | nil =>
      by_cases hnext : (runT ops).1.next < MAX_CONNS
      · simp only [TokenPool.acquire, hfree, if_pos hnext]
        constructor
        · intro hc; simp at hc
        · rintro ⟨-, hc⟩; omega
      · simp only [TokenPool.acquire, hfree, if_neg hnext]
        constructor
        · intro _
          exact ⟨trivial, by omega⟩
        · intro _
          trivial
  · intro t hacq
    cases hfree : (runT ops).1.free with
    | cons t0 rest =>
      simp only [TokenPool.acquire, hfree] at hacq
      injection hacq with h
      exact h ▸ (hfb t0 (by rw [hfree]; exact List.mem_cons_self _ _)).1
    | nil =>
      by_cases hnext : (runT ops).1.next < MAX_CONNS
      · simp only [TokenPool.acquire, hfree, if_pos hnext] at hacq
        injection hacq with h
        omega
      · simp only [TokenPool.acquire, hfree, if_neg hnext] at hacq
        simp at hacq
  · intro t rest hfree
    simp only [TokenPool.acquire, hfree]
  · intro hfree hnext
    simp only [TokenPool.acquire, hfree, if_pos hnext]

theorem C6_token_pool_invariants_witness :
    (runT [TOp.acq]).1.next ≤ MAX_CONNS ∧ (0 : Nat) < 2 :=
  ⟨(C6_token_pool_invariants [TOp.acq]).1,
   (C6_token_pool_invariants [TOp.acq]).2.2.2.1 2 rfl⟩

/-- Claim C7: TokenPool::release of an out-of-range token (0 or ≥
MAX_CONNS) or of a token currently on the free list is rejected (the code
logs a diagnostic) and leaves the pool completely unchanged -- in
particular nothing is pushed onto the free list and the disjointness of
free and in-use tokens is intact. -/
theorem C7_release_invalid_is_noop (ops : List TOp) (t : Nat)
    (h : t = 0 ∨ MAX_CONNS ≤ t ∨ t ∈ (runT ops).1.free) :
    (runT ops).1.release t = (runT ops).1 := by
  obtain ⟨hlen, hn1, hn2, hfb, hhb, hfnd, hhnd, hdisj, hiu⟩ := runT_inv ops
  rcases h with h0 | hge | hfree
  · simp [TokenPool.release, h0]
  · simp [TokenPool.release, hge]
  · have hb := hfb t hfree
    have hrange : ¬(t = 0 ∨ MAX_CONNS ≤ t) := by omega
    have hnotheld : t ∉ (runT ops).2 := fun hth => hdisj t hth hfree
    have hmark : (runT ops).1.in_use.getD t false = false := by
      cases hm : (runT ops).1.in_use.getD t false with
      | false => rfl
      | true => exact absurd ((hiu t).mp hm) hnotheld
    simp only [TokenPool.release, if_neg hrange]
    rw [if_neg (by simpa using hmark)]

theorem C7_release_invalid_is_noop_witness :
    (runT []).1.release 0 = (runT []).1 :=
  C7_release_invalid_is_noop [] 0 (Or.inl rfl)

/-! ## RPS counter and stats pusher (src/counter.rs)

Each Slot holds an AtomicU64 (padding has no state content); a worker does
a relaxed fetch_add(1) on its own slot, which wraps at 2^64; total() sums
the slots as u64 (also mod 2^64).  The pusher formats with
write!(cursor, "{}:{}|g", STATS_METRIC, rps) into a 64-byte buffer and
sends buf[..n]; bytes are modelled as ASCII code lists and the u64 Display
of rps as its decimal digit bytes. -/

structure RpsCounter where
  slots : List Nat
deriving DecidableEq, Repr

/-- RpsCounter::new (counter.rs): one zeroed slot per thread. -/
def RpsCounter.new (num_threads : Nat) : RpsCounter :=
  { slots := List.replicate num_threads 0 }

/-- RpsCounter::increment (counter.rs): wrapping fetch_add(1) on slot
thread_id. -/
def RpsCounter.increment (c : RpsCounter) (thread_id : Nat) : RpsCounter :=
  { slots := c.slots.set thread_id ((c.slots.getD thread_id 0 + 1) % UMAX) }

/-- RpsCounter::total (counter.rs): u64 sum of all slots. -/
def RpsCounter.total (c : RpsCounter) : Nat :=
  c.slots.sum % UMAX

/-- u64::wrapping_sub, on residues mod 2^64. -/
def wrappingSub (a b : Nat) : Nat :=
  (a % UMAX + UMAX - b % UMAX) % UMAX

/-- "vrypt.rps" as ASCII bytes (STATS_METRIC in config.rs). -/
def STATS_METRIC_BYTES : List Nat := [118, 114, 121, 112, 116, 46, 114, 112, 115]

/-- The decimal digit bytes of n, most significant first, as produced by
Display for an unsigned integer. -/
def decDigits (n : Nat) : List Nat :=
  if h : n < 10 then [48 + n]
  else decDigits (n / 10) ++ [48 + n % 10]
decreasing_by exact Nat.div_lt_self (by omega) (by omega)

/-- One iteration of the stats-pusher loop body (counter.rs:57-74):
rps = total.wrapping_sub(prev); prev = total; format "<metric>:<rps>|g"
through a cursor over a 64-byte buffer, skipping the send if the message
does not fit; send buf[..n].  Returns the new prev and the sent bytes
(none = send skipped). -/
def pusherTick (prev total : Nat) : Nat × Option (List Nat) :=
  let rps := wrappingSub total prev
  let msg := STATS_METRIC_BYTES ++ [58] ++ decDigits rps ++ [124, 103]
  if msg.length ≤ 64 then (total, some msg) else (total, none)

theorem decDigits_length (k : Nat) :
    ∀ n, 0 < k → n < 10 ^ k → (decDigits n).length ≤ k := by
  induction k with
  | zero =>
    intro n h
    exact absurd h (by omega)
  | succ k2 ih =>
    intro n _ hn
    by_cases h10 : n < 10
    · rw [decDigits, dif_pos h10]
      simp
    · rw [decDigits, dif_neg h10]
      cases k2 with
      | zero =>
        rw [pow_one] at hn
        omega
      | succ k3 =>
        have hdiv : n / 10 < 10 ^ (k3 + 1) := by
          rw [Nat.div_lt_iff_lt_mul (by omega : (0:Nat) < 10)]
          calc n < 10 ^ (k3 + 1 + 1) := hn
          _ = 10 ^ (k3 + 1) * 10 := by rw [pow_succ]
        have := ih (n / 10) (by omega) hdiv
        simp only [List.length_append, List.length_cons, List.length_nil]
        omega

theorem decDigits_le_twenty (n : Nat) (h : n < UMAX) : (decDigits n).length ≤ 20 := by
  have hle : UMAX ≤ 10 ^ 20 := by norm_num [UMAX]
  exact decDigits_length 20 n (by omega) (by omega)

theorem sum_set (l : List Nat) :
    ∀ i x, i < l.length → (l.set i x).sum + l.getD i 0 = l.sum + x := by
  induction l with
  | nil =>
    intro i x h
    simp at h
  | cons a as ih =>
    intro i x h
    cases i with
    | zero =>
      simp [List.set, List.sum_cons]
      omega
    | succ n =>
      simp only [List.set, List.sum_cons, List.getD_cons_succ]
      have := ih n x (by simpa using h)
      omega

/-- Claim C9 counterexample: total() is NOT monotonically non-decreasing
under increments in general, because the u64 fetch_add wraps: a counter
whose slot holds 2^64 - 1 drops to 0 on the next increment, so total()
strictly decreases. -/
theorem C9_counter_wrap_counterexample :
    ((RpsCounter.mk [UMAX - 1]).increment 0).total
      < (RpsCounter.mk [UMAX - 1]).total := by
  decide

/-- Claim C9 as amended: an increment adds exactly 1 to the worker's own
slot and to total() -- hence both are non-decreasing -- provided that slot
(respectively total) has not yet reached the 2^64 wrap point; other slots
are untouched; delta = total.wrapping_sub(prev) recovers the true number
of increments modulo 2^64 even across counter wrap; and every pusher tick
sends exactly the statsd gauge bytes "vrypt.rps:<delta>|g" for its delta
(the message always fits the 64-byte buffer). -/
theorem C9_stats_pusher (c : RpsCounter) (tid prev d : Nat)
    (htid : tid < c.slots.length)
    (hslot : c.slots.getD tid 0 + 1 < UMAX)
    (htot : c.total + 1 < UMAX) :
    ((c.increment tid).slots.getD tid 0 = c.slots.getD tid 0 + 1)
  ∧ ((c.increment tid).total = c.total + 1)
  ∧ (∀ j, j ≠ tid → (c.increment tid).slots.getD j 0 = c.slots.getD j 0)
  ∧ (wrappingSub ((prev + d) % UMAX) (prev % UMAX) = d % UMAX)
  ∧ (∀ p2 t2, pusherTick p2 t2
        = (t2, some (STATS_METRIC_BYTES ++ [58]
            ++ decDigits (wrappingSub t2 p2) ++ [124, 103]))) := by
  have hU : UMAX = 18446744073709551616 := by norm_num [UMAX]
  have hmod : (c.slots.getD tid 0 + 1) % UMAX = c.slots.getD tid 0 + 1 :=
    Nat.mod_eq_of_lt hslot
  refine ⟨?_, ?_, ?_, ?_, ?_⟩
  · rw [RpsCounter.increment, getD_set_self _ _ _ _ htid]
    exact hmod
  · have hsum := sum_set c.slots tid ((c.slots.getD tid 0 + 1) % UMAX) htid
    rw [hmod] at hsum
    rw [RpsCounter.total] at htot
    show (c.slots.set tid ((c.slots.getD tid 0 + 1) % UMAX)).sum % UMAX
      = c.slots.sum % UMAX + 1
    rw [hmod]
    rw [hU] at htot ⊢
    omega
  · intro j hj
    rw [RpsCounter.increment]
    exact getD_set_ne _ _ _ _ _ (fun hh => hj hh.symm)
  · rw [wrappingSub, hU]
    omega
  · intro p2 t2
    have hrps : wrappingSub t2 p2 < UMAX := by
      rw [wrappingSub]
      exact Nat.mod_lt _ (by rw [hU]; omega)
    have hlen : (STATS_METRIC_BYTES ++ [58]
        ++ decDigits (wrappingSub t2 p2) ++ [124, 103]).length ≤ 64 := by
      have := decDigits_le_twenty _ hrps
      simp only [STATS_METRIC_BYTES, List.length_append, List.length_cons,
        List.length_nil]
      omega
    simp only [pusherTick]
    rw [if_pos hlen]

theorem C9_stats_pusher_witness :
    ((RpsCounter.mk [5]).increment 0).slots.getD 0 0 = 5 + 1
  ∧ ((RpsCounter.mk [5]).increment 0).total = (RpsCounter.mk [5]).total + 1
  ∧ wrappingSub ((3 + 4) % UMAX) (3 % UMAX) = 4 % UMAX := by
  have h := C9_stats_pusher (RpsCounter.mk [5]) 0 3 4 (by decide) (by decide) (by decide)
  exact ⟨h.1, h.2.1, h.2.2.2.1⟩
